import Mathlib

/-!
Shallow embedding of the simulation engine in `amitosis.py` (class
`Populations`).  Arrays indexed `[replicate, individual, locus]` are
modelled as functions `ℕ → ℕ → ℕ → ℤ`; the floating-point arithmetic of
the fitness computation is modelled exactly over `ℚ` (with an auxiliary
layer `NpFloat` of IEEE special values for the division-by-zero
analysis); the stochastic draws (`np.random.binomial`,
`np.random.random`, `np.random.hypergeometric`) are modelled as oracle
functions supplied as arguments, constrained only by the support of the
corresponding distribution.
-/

namespace Amitosis

/-- State of the `Populations` object: the seven constructor parameters,
the two genome arrays, the cached fitness attributes, the selection
result, the generation counter, and the statistics log (the
`fitness_mean` and `fitness_std` dictionaries merged into one list of
`(generation, mean, std)` entries in insertion order). -/
structure Populations where
  nReps : ℕ
  N : ℕ
  nLoci : ℕ
  ploidy : ℕ
  genomic_mu : ℚ
  selcoef : ℚ
  amitosis : Bool
  soma : ℕ → ℕ → ℕ → ℤ
  germ : ℕ → ℕ → ℕ → ℤ
  fitness : ℕ → ℕ → ℚ
  relative_fitness : ℕ → ℕ → ℚ
  selected : ℕ → ℕ → ℕ
  generation : ℕ
  fitnessLog : List (ℕ × ℚ × ℝ)

/-- Per-site mutation probability `mu = genomic_mu / (nLoci * ploidy)`
(set once in `__init__`, line 40 of `amitosis.py`). -/
def Populations.mu (P : Populations) : ℚ :=
  P.genomic_mu / ((P.nLoci : ℚ) * (P.ploidy : ℚ))

/-- Fitness of individual `i` in replicate `r`, as computed by
`get_fitness` (lines 52-53): per-locus effect `s = (soma / ploidy) *
selcoef` and `fitness = np.prod(1 + s, axis=2)`. -/
def fitnessCalc (P : Populations) (r i : ℕ) : ℚ :=
  ∏ l ∈ Finset.range P.nLoci,
    (1 + ((P.soma r i l : ℚ) / (P.ploidy : ℚ)) * P.selcoef)

/-- The `get_fitness` method (lines 49-54): recompute the `fitness` and
`relative_fitness` attributes from the current `soma`. -/
def Populations.get_fitness (P : Populations) : Populations :=
  { P with
    fitness := fun r i => fitnessCalc P r i
    relative_fitness := fun r i =>
      fitnessCalc P r i / ∑ j ∈ Finset.range P.N, fitnessCalc P r j }

/-- The `mutate` method (lines 56-60), with the two vectorised
`np.random.binomial` calls supplied as oracles `binomS` and `binomG`
mapping `(trials, p, r, i, l)` to the independent draw made for cell
`(r, i, l)`. -/
def Populations.mutate (P : Populations)
    (binomS binomG : ℤ → ℚ → ℕ → ℕ → ℕ → ℤ) : Populations :=
  { P with
    soma := fun r i l =>
      P.soma r i l + binomS ((P.ploidy : ℤ) - P.soma r i l) P.mu r i l
    germ := fun r i l =>
      P.germ r i l + binomG (2 - P.germ r i l) P.mu r i l }

/-- Inclusive cumulative sum of `relative_fitness` along the individual
axis (`np.cumsum(self.relative_fitness, axis=1)`, line 67). -/
def cumsumRel (P : Populations) (r i : ℕ) : ℚ :=
  ∑ j ∈ Finset.range (i + 1), P.relative_fitness r j

/-- The bisection of `np.searchsorted` (default side `left`): smallest
insertion index of `v` into the slice `a[lo:hi]` that keeps a sorted
array sorted, computed exactly as the binary-search loop of the C
implementation. -/
def searchsorted (a : ℕ → ℚ) (v : ℚ) (lo hi : ℕ) : ℕ :=
  if h : lo < hi then
    if a ((lo + hi) / 2) < v then searchsorted a v ((lo + hi) / 2 + 1) hi
    else searchsorted a v lo ((lo + hi) / 2)
  else lo
termination_by hi - lo
decreasing_by
  all_goals omega

/-- The `select` method (lines 62-69): refresh fitness, then for each of
the `N` uniform draws per replicate (`np.random.random((nReps, N))`,
supplied as the oracle `draws`) store the insertion index of the draw in
that replicate's cumulative relative fitness. -/
def Populations.select (P : Populations) (draws : ℕ → ℕ → ℚ) : Populations :=
  { P.get_fitness with
    selected := fun r i =>
      searchsorted (cumsumRel P.get_fitness r) (draws r i) 0 P.N }

/-- The `reproduce` method (lines 71-83): the germline is gathered
clonally by the selected parent index; the soma is either gathered
clonally (mitosis) or redrawn by
`np.random.hypergeometric(mutant, wildtype, ploidy)` (amitosis), the
draw being supplied as an oracle `hyper` mapping
`(ngood, nbad, nsample, r, i, l)` to the independent draw made for cell
`(r, i, l)`. -/
def Populations.reproduce (P : Populations)
    (hyper : ℤ → ℤ → ℕ → ℕ → ℕ → ℕ → ℤ) : Populations :=
  if P.amitosis then
    { P with
      germ := fun r i l => P.germ r (P.selected r i) l
      soma := fun r i l =>
        hyper (P.soma r (P.selected r i) l * 2)
          (((P.ploidy : ℤ) - P.soma r (P.selected r i) l) * 2)
          P.ploidy r i l }
  else
    { P with
      germ := fun r i l => P.germ r (P.selected r i) l
      soma := fun r i l => P.soma r (P.selected r i) l }

/-- The `get_next_generation` method (lines 85-92): mutation, selection,
reproduction, then increment the generation counter. -/
def Populations.get_next_generation (P : Populations)
    (binomS binomG : ℤ → ℚ → ℕ → ℕ → ℕ → ℤ) (draws : ℕ → ℕ → ℚ)
    (hyper : ℤ → ℤ → ℕ → ℕ → ℕ → ℕ → ℤ) : Populations :=
  let P3 := ((P.mutate binomS binomG).select draws).reproduce hyper
  { P3 with generation := P3.generation + 1 }

/-- Mean fitness of replicate `r` (`self.fitness.mean(axis=1)` in
`collect_data`, line 95). -/
def repMean (P : Populations) (r : ℕ) : ℚ :=
  (∑ i ∈ Finset.range P.N, P.fitness r i) / (P.N : ℚ)

/-- Mean across replicates of the per-replicate mean fitness
(`fitness.mean()`, line 96). -/
def collectMean (P : Populations) : ℚ :=
  (∑ r ∈ Finset.range P.nReps, repMean P r) / (P.nReps : ℚ)

/-- Sample variance (`ddof=1`) across replicates of the per-replicate
mean fitness, whose square root is `fitness.std(ddof=1)` (line 97). -/
def collectVar (P : Populations) : ℚ :=
  (∑ r ∈ Finset.range P.nReps, (repMean P r - collectMean P) ^ 2) /
    ((P.nReps : ℚ) - 1)

/-- The `collect_data` method (lines 94-97): append the current
generation's summary statistics to the log. -/
noncomputable def Populations.collect_data (P : Populations) : Populations :=
  { P with
    fitnessLog :=
      P.fitnessLog ++ [(P.generation, collectMean P, Real.sqrt (collectVar P))] }

/-- The constructor `__init__` (lines 8-47): zero-initialised genome
arrays, fitness computed once, statistics recorded at generation 0.  The
`fitness`, `relative_fitness` and `selected` attributes do not exist in
Python before `get_fitness` and `select` first assign them; here they
carry placeholder values that no operation reads before assigning. -/
noncomputable def Populations.init (nReps N nLoci ploidy : ℕ)
    (genomic_mu selcoef : ℚ) (amitosis : Bool) : Populations :=
  (Populations.get_fitness
    { nReps := nReps, N := N, nLoci := nLoci, ploidy := ploidy
      genomic_mu := genomic_mu, selcoef := selcoef, amitosis := amitosis
      soma := fun _ _ _ => 0, germ := fun _ _ _ => 0
      fitness := fun _ _ => 0, relative_fitness := fun _ _ => 0
      selected := fun _ _ => 0, generation := 0,
      fitnessLog := [] }).collect_data

/-- One generation's batch of random draws: the two binomial arrays of
`mutate`, the uniform array of `select`, and the hypergeometric array of
`reproduce`. -/
structure RandGen where
  binomS : ℤ → ℚ → ℕ → ℕ → ℕ → ℤ
  binomG : ℤ → ℚ → ℕ → ℕ → ℕ → ℤ
  unif : ℕ → ℕ → ℚ
  hyper : ℤ → ℤ → ℕ → ℕ → ℕ → ℕ → ℤ

/-- One iteration of the `evolve` loop body (lines 109-112): advance one
generation, then record statistics if the generation number is a
multiple of the recording interval. -/
noncomputable def evolveStep (interval : ℕ) (g : RandGen)
    (P : Populations) : Populations :=
  let Q := P.get_next_generation g.binomS g.binomG g.unif g.hyper
  if Q.generation % interval = 0 then Q.collect_data else Q

/-- The first `n` iterations of the `evolve` loop, iteration `k` using
the random batch `rand k`. -/
noncomputable def evolveLoop (rand : ℕ → RandGen) (interval : ℕ)
    (P : Populations) : ℕ → Populations
  | 0 => P
  | n + 1 => evolveStep interval (rand n) (evolveLoop rand interval P n)

/-- One row of the dataframe returned by `evolve` (lines 113-123). -/
structure EvolveRow where
  generation : ℕ
  fitness_mean : ℚ
  fitness_std : ℝ
  nReps : ℕ
  N : ℕ
  nLoci : ℕ
  ploidy : ℕ
  genomic_mu : ℚ
  selcoef : ℚ
  amitosis : Bool

/-- Column names of the dataframe returned by `evolve`, in order:
`reset_index` plus the rename turn the dict keys into the `generation`
column, the two dicts give `fitness_mean` and `fitness_std`, and lines
116-122 append the seven constructor parameters. -/
def evolveColumns : List String :=
  ["generation", "fitness_mean", "fitness_std",
   "nReps", "N", "nLoci", "ploidy", "genomic_mu", "selcoef", "amitosis"]

/-- The `evolve` method (lines 99-123): run the generation loop, then
read the statistics log out as a table with one row per recorded
generation and the constructor parameters echoed on every row. -/
noncomputable def Populations.evolve (P : Populations) (rand : ℕ → RandGen)
    (ngenerations interval : ℕ) : List EvolveRow :=
  (evolveLoop rand interval P ngenerations).fitnessLog.map fun e =>
    { generation := e.1, fitness_mean := e.2.1, fitness_std := e.2.2
      nReps := (evolveLoop rand interval P ngenerations).nReps
      N := (evolveLoop rand interval P ngenerations).N
      nLoci := (evolveLoop rand interval P ngenerations).nLoci
      ploidy := (evolveLoop rand interval P ngenerations).ploidy
      genomic_mu := (evolveLoop rand interval P ngenerations).genomic_mu
      selcoef := (evolveLoop rand interval P ngenerations).selcoef
      amitosis := (evolveLoop rand interval P ngenerations).amitosis }

/-- Somatic array invariant: every entry lies in `[0, ploidy]`. -/
def somaInv (P : Populations) : Prop :=
  ∀ r i l, 0 ≤ P.soma r i l ∧ P.soma r i l ≤ (P.ploidy : ℤ)

/-- Germline array invariant: every entry lies in `[0, 2]`. -/
def germInv (P : Populations) : Prop :=
  ∀ r i l, 0 ≤ P.germ r i l ∧ P.germ r i l ≤ 2

/-- Support constraint of `np.random.binomial`: for a nonnegative trial
count the draw lies in `[0, trials]`. -/
def BinomBounds (b : ℤ → ℚ → ℕ → ℕ → ℕ → ℤ) : Prop :=
  ∀ n p r i l, 0 ≤ n → 0 ≤ b n p r i l ∧ b n p r i l ≤ n

/-- Support constraint of `np.random.hypergeometric`: for a well-formed
pool (`ngood, nbad ≥ 0`, `nsample ≤ ngood + nbad`) the draw lies in
`[max 0 (nsample - nbad), min ngood nsample]`. -/
def HyperBounds (h : ℤ → ℤ → ℕ → ℕ → ℕ → ℕ → ℤ) : Prop :=
  ∀ (g b : ℤ) (s r i l : ℕ), 0 ≤ g → 0 ≤ b → (s : ℤ) ≤ g + b →
    max 0 ((s : ℤ) - b) ≤ h g b s r i l ∧ h g b s r i l ≤ min g (s : ℤ)

/-- The generation numbers recorded in the statistics log, in order. -/
def logGens (P : Populations) : List ℕ :=
  P.fitnessLog.map fun e => e.1

/-- The tuple of the seven constructor parameters of a state. -/
def params (P : Populations) : ℕ × ℕ × ℕ × ℕ × ℚ × ℚ × Bool :=
  (P.nReps, P.N, P.nLoci, P.ploidy, P.genomic_mu, P.selcoef, P.amitosis)

/-- An IEEE-754 value at the precision of this model: an exact finite
value, one of the two infinities, or NaN. -/
inductive NpFloat where
  | finite : ℚ → NpFloat
  | inf : NpFloat
  | neginf : NpFloat
  | nan : NpFloat
deriving DecidableEq

/-- Whether an `NpFloat` is a finite (valid) value. -/
def NpFloat.isFinite : NpFloat → Bool
  | .finite _ => true
  | _ => false

/-- IEEE-754 addition on `NpFloat` (numpy semantics, no rounding at this
precision). -/
def npAdd : NpFloat → NpFloat → NpFloat
  | .nan, _ => .nan
  | _, .nan => .nan
  | .inf, .neginf => .nan
  | .neginf, .inf => .nan
  | .inf, _ => .inf
  | _, .inf => .inf
  | .neginf, _ => .neginf
  | _, .neginf => .neginf
  | .finite a, .finite b => .finite (a + b)

/-- IEEE-754 division on `NpFloat` (numpy semantics: `x / 0` is `±inf`
for `x ≠ 0` and NaN for `x = 0`, emitting a warning, not an
exception). -/
def npDiv : NpFloat → NpFloat → NpFloat
  | .nan, _ => .nan
  | _, .nan => .nan
  | .finite a, .finite b =>
      if b = 0 then
        (if a = 0 then .nan else if 0 < a then .inf else .neginf)
      else .finite (a / b)
  | .inf, .finite b => if 0 ≤ b then .inf else .neginf
  | .neginf, .finite b => if 0 ≤ b then .neginf else .inf
  | .finite _, .inf => .finite 0
  | .finite _, .neginf => .finite 0
  | .inf, .inf => .nan
  | .inf, .neginf => .nan
  | .neginf, .inf => .nan
  | .neginf, .neginf => .nan

/-- The normalization division of `get_fitness` (line 54) at the
floating-point level: the exact fitness values divided with IEEE
special-value semantics, as numpy performs it without any validation. -/
def relFitF (P : Populations) (r i : ℕ) : NpFloat :=
  npDiv (.finite (fitnessCalc P r i))
    (.finite (∑ j ∈ Finset.range P.N, fitnessCalc P r j))

/-- The cumulative sum built by `select` (line 67) at the floating-point
level, fed by the values produced by the normalization division. -/
def cumsumF (P : Populations) (r : ℕ) : ℕ → NpFloat
  | 0 => relFitF P r 0
  | i + 1 => npAdd (cumsumF P r i) (relFitF P r (i + 1))

/-- Binomial oracle drawing zero successes everywhere (a point of the
support whenever trials are nonnegative). -/
def zeroBinom : ℤ → ℚ → ℕ → ℕ → ℕ → ℤ := fun _ _ _ _ _ => 0

/-- Hypergeometric oracle drawing `min ngood nsample` everywhere (a
point of the support for every well-formed pool). -/
def minHyper : ℤ → ℤ → ℕ → ℕ → ℕ → ℕ → ℤ := fun g _ s _ _ _ => min g (s : ℤ)

/-- Uniform oracle drawing `0` everywhere (a point of `[0, 1)`). -/
def zeroUnif : ℕ → ℕ → ℚ := fun _ _ => 0

/-- A concrete stream of random batches built from the concrete
oracles. -/
def wRand : ℕ → RandGen :=
  fun _ => { binomS := zeroBinom, binomG := zeroBinom,
             unif := zeroUnif, hyper := minHyper }

/-- A concrete mitotic state used to instantiate theorems: one
replicate, two individuals, one locus, somatic ploidy 2, every soma and
germ count equal to 1. -/
def basePop : Populations :=
  { nReps := 1, N := 2, nLoci := 1, ploidy := 2, genomic_mu := 0,
    selcoef := 0, amitosis := false,
    soma := fun _ _ _ => 1, germ := fun _ _ _ => 1,
    fitness := fun _ _ => 1, relative_fitness := fun _ _ => 0,
    selected := fun _ _ => 0, generation := 0, fitnessLog := [] }

/-- The concrete state `basePop` switched to amitotic reproduction. -/
def amiPop : Populations :=
  { basePop with amitosis := true }

/-- A concrete state whose total fitness is exactly zero in every
replicate: `selcoef = -1` and every somatic site fully mutant, so every
individual fitness is `1 + (2/2)(-1) = 0`. -/
def zeroFitPop : Populations :=
  { basePop with selcoef := -1, soma := fun _ _ _ => 2 }

end Amitosis

namespace Amitosis

/-! Projection lemmas: which attributes each method reads and writes. -/

@[simp] theorem get_fitness_soma (P : Populations) : P.get_fitness.soma = P.soma := rfl

@[simp] theorem get_fitness_germ (P : Populations) : P.get_fitness.germ = P.germ := rfl

@[simp] theorem get_fitness_N (P : Populations) : P.get_fitness.N = P.N := rfl

@[simp] theorem get_fitness_nReps (P : Populations) : P.get_fitness.nReps = P.nReps := rfl

@[simp] theorem get_fitness_nLoci (P : Populations) : P.get_fitness.nLoci = P.nLoci := rfl

@[simp] theorem get_fitness_ploidy (P : Populations) : P.get_fitness.ploidy = P.ploidy := rfl

@[simp] theorem get_fitness_generation (P : Populations) : P.get_fitness.generation = P.generation := rfl

@[simp] theorem get_fitness_fitnessLog (P : Populations) : P.get_fitness.fitnessLog = P.fitnessLog := rfl

@[simp] theorem get_fitness_fitness (P : Populations) :
    P.get_fitness.fitness = fun r i => fitnessCalc P r i := rfl

@[simp] theorem get_fitness_relative_fitness (P : Populations) :
    P.get_fitness.relative_fitness =
      fun r i => fitnessCalc P r i / ∑ j ∈ Finset.range P.N, fitnessCalc P r j := rfl

@[simp] theorem mutate_generation (P : Populations) (bS bG : ℤ → ℚ → ℕ → ℕ → ℕ → ℤ) :
    (P.mutate bS bG).generation = P.generation := rfl

@[simp] theorem mutate_fitnessLog (P : Populations) (bS bG : ℤ → ℚ → ℕ → ℕ → ℕ → ℤ) :
    (P.mutate bS bG).fitnessLog = P.fitnessLog := rfl

@[simp] theorem mutate_soma (P : Populations) (bS bG : ℤ → ℚ → ℕ → ℕ → ℕ → ℤ) :
    (P.mutate bS bG).soma =
      fun r i l => P.soma r i l + bS ((P.ploidy : ℤ) - P.soma r i l) P.mu r i l := rfl

@[simp] theorem mutate_germ (P : Populations) (bS bG : ℤ → ℚ → ℕ → ℕ → ℕ → ℤ) :
    (P.mutate bS bG).germ =
      fun r i l => P.germ r i l + bG (2 - P.germ r i l) P.mu r i l := rfl

@[simp] theorem select_soma (P : Populations) (d : ℕ → ℕ → ℚ) :
    (P.select d).soma = P.soma := rfl

@[simp] theorem select_germ (P : Populations) (d : ℕ → ℕ → ℚ) :
    (P.select d).germ = P.germ := rfl

@[simp] theorem select_generation (P : Populations) (d : ℕ → ℕ → ℚ) :
    (P.select d).generation = P.generation := rfl

@[simp] theorem select_fitnessLog (P : Populations) (d : ℕ → ℕ → ℚ) :
    (P.select d).fitnessLog = P.fitnessLog := rfl

@[simp] theorem select_fitness (P : Populations) (d : ℕ → ℕ → ℚ) :
    (P.select d).fitness = P.get_fitness.fitness := rfl

@[simp] theorem select_relative_fitness (P : Populations) (d : ℕ → ℕ → ℚ) :
    (P.select d).relative_fitness = P.get_fitness.relative_fitness := rfl

@[simp] theorem select_selected (P : Populations) (d : ℕ → ℕ → ℚ) :
    (P.select d).selected =
      fun r i => searchsorted (cumsumRel P.get_fitness r) (d r i) 0 P.N := rfl

@[simp] theorem reproduce_germ (P : Populations) (hy : ℤ → ℤ → ℕ → ℕ → ℕ → ℕ → ℤ) :
    (P.reproduce hy).germ = fun r i l => P.germ r (P.selected r i) l := by
  unfold Populations.reproduce
  split <;> rfl

theorem reproduce_soma_mit (P : Populations) (hy : ℤ → ℤ → ℕ → ℕ → ℕ → ℕ → ℤ)
    (hb : P.amitosis = false) :
    (P.reproduce hy).soma = fun r i l => P.soma r (P.selected r i) l := by
  simp [Populations.reproduce, hb]

theorem reproduce_soma_ami (P : Populations) (hy : ℤ → ℤ → ℕ → ℕ → ℕ → ℕ → ℤ)
    (hb : P.amitosis = true) :
    (P.reproduce hy).soma = fun r i l =>
      hy (P.soma r (P.selected r i) l * 2)
        (((P.ploidy : ℤ) - P.soma r (P.selected r i) l) * 2) P.ploidy r i l := by
  simp [Populations.reproduce, hb]

@[simp] theorem reproduce_generation (P : Populations) (hy : ℤ → ℤ → ℕ → ℕ → ℕ → ℕ → ℤ) :
    (P.reproduce hy).generation = P.generation := by
  unfold Populations.reproduce
  split <;> rfl

@[simp] theorem reproduce_fitnessLog (P : Populations) (hy : ℤ → ℤ → ℕ → ℕ → ℕ → ℕ → ℤ) :
    (P.reproduce hy).fitnessLog = P.fitnessLog := by
  unfold Populations.reproduce
  split <;> rfl

@[simp] theorem reproduce_ploidy (P : Populations) (hy : ℤ → ℤ → ℕ → ℕ → ℕ → ℕ → ℤ) :
    (P.reproduce hy).ploidy = P.ploidy := by
  unfold Populations.reproduce
  split <;> rfl

@[simp] theorem reproduce_params (P : Populations) (hy : ℤ → ℤ → ℕ → ℕ → ℕ → ℕ → ℤ) :
    params (P.reproduce hy) = params P := by
  unfold params Populations.reproduce
  split <;> rfl

@[simp] theorem collect_data_soma (P : Populations) : P.collect_data.soma = P.soma := rfl

@[simp] theorem collect_data_germ (P : Populations) : P.collect_data.germ = P.germ := rfl

@[simp] theorem collect_data_generation (P : Populations) :
    P.collect_data.generation = P.generation := rfl

@[simp] theorem collect_data_params (P : Populations) : params P.collect_data = params P := rfl

@[simp] theorem collect_data_logGens (P : Populations) :
    logGens P.collect_data = logGens P ++ [P.generation] := by
  simp [Populations.collect_data, logGens]

@[simp] theorem gnext_generation (P : Populations) (bS bG : ℤ → ℚ → ℕ → ℕ → ℕ → ℤ)
    (d : ℕ → ℕ → ℚ) (hy : ℤ → ℤ → ℕ → ℕ → ℕ → ℕ → ℤ) :
    (P.get_next_generation bS bG d hy).generation = P.generation + 1 := by
  unfold Populations.get_next_generation
  simp

@[simp] theorem gnext_fitnessLog (P : Populations) (bS bG : ℤ → ℚ → ℕ → ℕ → ℕ → ℤ)
    (d : ℕ → ℕ → ℚ) (hy : ℤ → ℤ → ℕ → ℕ → ℕ → ℕ → ℤ) :
    (P.get_next_generation bS bG d hy).fitnessLog = P.fitnessLog := by
  unfold Populations.get_next_generation
  simp

@[simp] theorem gnext_params (P : Populations) (bS bG : ℤ → ℚ → ℕ → ℕ → ℕ → ℤ)
    (d : ℕ → ℕ → ℚ) (hy : ℤ → ℤ → ℕ → ℕ → ℕ → ℕ → ℤ) :
    params (P.get_next_generation bS bG d hy) = params P := by
  unfold Populations.get_next_generation
  exact reproduce_params ((P.mutate bS bG).select d) hy

/-! Invariant preservation. -/

theorem mutate_somaInv (P : Populations) (bS bG : ℤ → ℚ → ℕ → ℕ → ℕ → ℤ)
    (hbS : BinomBounds bS) (hs : somaInv P) : somaInv (P.mutate bS bG) := by
  intro r i l
  have h1 := hs r i l
  have h2 := hbS ((P.ploidy : ℤ) - P.soma r i l) P.mu r i l (by omega)
  simp only [Populations.mutate]
  constructor <;> omega

theorem mutate_germInv (P : Populations) (bS bG : ℤ → ℚ → ℕ → ℕ → ℕ → ℤ)
    (hbG : BinomBounds bG) (hg : germInv P) : germInv (P.mutate bS bG) := by
  intro r i l
  have h1 := hg r i l
  have h2 := hbG (2 - P.germ r i l) P.mu r i l (by omega)
  simp only [Populations.mutate]
  constructor <;> omega

theorem reproduce_somaInv (P : Populations) (hy : ℤ → ℤ → ℕ → ℕ → ℕ → ℕ → ℤ)
    (hhy : HyperBounds hy) (hs : somaInv P) : somaInv (P.reproduce hy) := by
  intro r i l
  have h1 := hs r (P.selected r i) l
  cases hb : P.amitosis with
  | true =>
    rw [show (P.reproduce hy).ploidy = P.ploidy from reproduce_ploidy P hy,
      reproduce_soma_ami P hy hb]
    have h2 := hhy (P.soma r (P.selected r i) l * 2)
      (((P.ploidy : ℤ) - P.soma r (P.selected r i) l) * 2) P.ploidy r i l
      (by omega) (by omega) (by omega)
    dsimp only
    constructor <;> omega
  | false =>
    rw [show (P.reproduce hy).ploidy = P.ploidy from reproduce_ploidy P hy,
      reproduce_soma_mit P hy hb]
    exact h1

theorem reproduce_germInv (P : Populations) (hy : ℤ → ℤ → ℕ → ℕ → ℕ → ℕ → ℤ)
    (hg : germInv P) : germInv (P.reproduce hy) := by
  intro r i l
  rw [reproduce_germ]
  exact hg r (P.selected r i) l

theorem gnext_somaInv (P : Populations) (bS bG : ℤ → ℚ → ℕ → ℕ → ℕ → ℤ)
    (d : ℕ → ℕ → ℚ) (hy : ℤ → ℤ → ℕ → ℕ → ℕ → ℕ → ℤ)
    (hbS : BinomBounds bS) (hhy : HyperBounds hy) (hs : somaInv P) :
    somaInv (P.get_next_generation bS bG d hy) := by
  have h1 : somaInv (P.mutate bS bG) := mutate_somaInv P bS bG hbS hs
  have h2 : somaInv ((P.mutate bS bG).select d) := h1
  have h3 : somaInv (((P.mutate bS bG).select d).reproduce hy) :=
    reproduce_somaInv _ hy hhy h2
  exact h3

theorem gnext_germInv (P : Populations) (bS bG : ℤ → ℚ → ℕ → ℕ → ℕ → ℤ)
    (d : ℕ → ℕ → ℚ) (hy : ℤ → ℤ → ℕ → ℕ → ℕ → ℕ → ℤ)
    (hbG : BinomBounds bG) (hg : germInv P) :
    germInv (P.get_next_generation bS bG d hy) := by
  have h1 : germInv (P.mutate bS bG) := mutate_germInv P bS bG hbG hg
  have h2 : germInv ((P.mutate bS bG).select d) := h1
  have h3 : germInv (((P.mutate bS bG).select d).reproduce hy) :=
    reproduce_germInv _ hy h2
  exact h3

theorem evolveStep_inv (interval : ℕ) (g : RandGen) (P : Populations)
    (hbS : BinomBounds g.binomS) (hbG : BinomBounds g.binomG)
    (hhy : HyperBounds g.hyper) (hs : somaInv P) (hg : germInv P) :
    somaInv (evolveStep interval g P) ∧ germInv (evolveStep interval g P) := by
  have h1 := gnext_somaInv P g.binomS g.binomG g.unif g.hyper hbS hhy hs
  have h2 := gnext_germInv P g.binomS g.binomG g.unif g.hyper hbG hg
  refine ⟨?_, ?_⟩ <;> simp only [evolveStep] <;> split
  · exact h1
  · exact h1
  · exact h2
  · exact h2

theorem evolveLoop_inv (rand : ℕ → RandGen) (interval : ℕ) (P : Populations)
    (hrand : ∀ k, BinomBounds (rand k).binomS ∧ BinomBounds (rand k).binomG ∧
      HyperBounds (rand k).hyper)
    (hs : somaInv P) (hg : germInv P) :
    ∀ n, somaInv (evolveLoop rand interval P n) ∧ germInv (evolveLoop rand interval P n) := by
  intro n
  induction n with
  | zero => exact ⟨hs, hg⟩
  | succ n ih =>
    exact evolveStep_inv interval (rand n) _ (hrand n).1 (hrand n).2.1 (hrand n).2.2 ih.1 ih.2

theorem init_somaInv (nReps N nLoci ploidy : ℕ) (gm sc : ℚ) (am : Bool) :
    somaInv (Populations.init nReps N nLoci ploidy gm sc am) := by
  intro r i l
  exact ⟨le_refl 0, Int.ofNat_nonneg ploidy⟩

theorem init_germInv (nReps N nLoci ploidy : ℕ) (gm sc : ℚ) (am : Bool) :
    germInv (Populations.init nReps N nLoci ploidy gm sc am) := by
  intro r i l
  exact ⟨le_refl 0, show (0 : ℤ) ≤ 2 by norm_num⟩

end Amitosis

namespace Amitosis

/-! Characterisation of the `np.searchsorted` bisection on a sorted
slice: it returns the first index whose value is at or above the probe,
or the right end of the slice when no index qualifies. -/

theorem searchsorted_bounds (a : ℕ → ℚ) (v : ℚ) :
    ∀ d lo hi, hi - lo ≤ d → lo ≤ hi →
      lo ≤ searchsorted a v lo hi ∧ searchsorted a v lo hi ≤ hi := by
  intro d
  induction d with
  | zero =>
    intro lo hi hd hle
    have hnlt : ¬ lo < hi := by omega
    rw [searchsorted]
    simp only [dif_neg hnlt]
    omega
  | succ d ih =>
    intro lo hi hd hle
    rw [searchsorted]
    by_cases hlt : lo < hi
    · simp only [dif_pos hlt]
      by_cases hv : a ((lo + hi) / 2) < v
      · simp only [if_pos hv]
        have h2 := ih ((lo + hi) / 2 + 1) hi (by omega) (by omega)
        omega
      · simp only [if_neg hv]
        have h2 := ih lo ((lo + hi) / 2) (by omega) (by omega)
        omega
    · simp only [dif_neg hlt]
      omega

theorem searchsorted_lt_of_lt (a : ℕ → ℚ) (v : ℚ) :
    ∀ d lo hi, hi - lo ≤ d →
      (∀ j k, lo ≤ j → j ≤ k → k < hi → a j ≤ a k) →
      ∀ k, lo ≤ k → k < searchsorted a v lo hi → a k < v := by
  intro d
  induction d with
  | zero =>
    intro lo hi hd _ k hk1 hk2
    have hnlt : ¬ lo < hi := by omega
    rw [searchsorted] at hk2
    simp only [dif_neg hnlt] at hk2
    omega
  | succ d ih =>
    intro lo hi hd hmono k hk1 hk2
    rw [searchsorted] at hk2
    by_cases hlt : lo < hi
    · simp only [dif_pos hlt] at hk2
      by_cases hv : a ((lo + hi) / 2) < v
      · simp only [if_pos hv] at hk2
        by_cases hkm : k ≤ (lo + hi) / 2
        · exact lt_of_le_of_lt (hmono k ((lo + hi) / 2) hk1 hkm (by omega)) hv
        · exact ih ((lo + hi) / 2 + 1) hi (by omega)
            (fun j k2 hj hjk hk => hmono j k2 (by omega) hjk hk) k (by omega) hk2
      · simp only [if_neg hv] at hk2
        exact ih lo ((lo + hi) / 2) (by omega)
          (fun j k2 hj hjk hk => hmono j k2 hj hjk (by omega)) k hk1 hk2
    · simp only [dif_neg hlt] at hk2
      omega

theorem searchsorted_ge_at (a : ℕ → ℚ) (v : ℚ) :
    ∀ d lo hi, hi - lo ≤ d →
      (∀ j k, lo ≤ j → j ≤ k → k < hi → a j ≤ a k) →
      searchsorted a v lo hi < hi → v ≤ a (searchsorted a v lo hi) := by
  intro d
  induction d with
  | zero =>
    intro lo hi hd _ hres
    have hnlt : ¬ lo < hi := by omega
    rw [searchsorted] at hres
    simp only [dif_neg hnlt] at hres
    omega
  | succ d ih =>
    intro lo hi hd hmono hres
    rw [searchsorted] at hres ⊢
    by_cases hlt : lo < hi
    · simp only [dif_pos hlt] at hres ⊢
      by_cases hv : a ((lo + hi) / 2) < v
      · simp only [if_pos hv] at hres ⊢
        exact ih ((lo + hi) / 2 + 1) hi (by omega)
          (fun j k2 hj hjk hk => hmono j k2 (by omega) hjk hk) hres
      · simp only [if_neg hv] at hres ⊢
        have hb := searchsorted_bounds a v d lo ((lo + hi) / 2) (by omega) (by omega)
        by_cases hrm : searchsorted a v lo ((lo + hi) / 2) < (lo + hi) / 2
        · exact ih lo ((lo + hi) / 2) (by omega)
            (fun j k2 hj hjk hk => hmono j k2 hj hjk (by omega)) hrm
        · have heq : searchsorted a v lo ((lo + hi) / 2) = (lo + hi) / 2 := by omega
          rw [heq]
          exact not_lt.mp hv
    · simp only [dif_neg hlt] at hres
      omega

/-- Monotonicity of the cumulative sum of `relative_fitness` when the
relative fitness values of the replicate are nonnegative. -/
theorem cumsumRel_mono (P : Populations) (r : ℕ)
    (hnn : ∀ j, j < P.N → 0 ≤ P.relative_fitness r j) :
    ∀ j k, 0 ≤ j → j ≤ k → k < P.N → cumsumRel P r j ≤ cumsumRel P r k := by
  intro j k _ hjk hk
  unfold cumsumRel
  apply Finset.sum_le_sum_of_subset_of_nonneg
  · exact Finset.range_subset.mpr (by omega)
  · intro x hx _
    exact hnn x (by have := Finset.mem_range.mp hx; omega)

end Amitosis

namespace Amitosis

/-! Bookkeeping of the `evolve` loop: generation counter, recorded
generations, and preservation of the constructor parameters. -/

theorem evolveStep_generation (interval : ℕ) (g : RandGen) (P : Populations) :
    (evolveStep interval g P).generation = P.generation + 1 := by
  simp only [evolveStep]
  split
  · simp
  · simp

theorem evolveStep_params (interval : ℕ) (g : RandGen) (P : Populations) :
    params (evolveStep interval g P) = params P := by
  simp only [evolveStep]
  split
  · rw [collect_data_params, gnext_params]
  · rw [gnext_params]

theorem evolveStep_logGens (interval : ℕ) (g : RandGen) (P : Populations) :
    logGens (evolveStep interval g P) =
      if (P.generation + 1) % interval = 0 then logGens P ++ [P.generation + 1]
      else logGens P := by
  simp only [evolveStep]
  split
  · rename_i hrec
    rw [collect_data_logGens]
    simp only [gnext_generation] at hrec ⊢
    rw [if_pos hrec]
    have : logGens (P.get_next_generation g.binomS g.binomG g.unif g.hyper) = logGens P := by
      unfold logGens
      rw [gnext_fitnessLog]
    rw [this]
  · rename_i hrec
    simp only [gnext_generation] at hrec
    rw [if_neg hrec]
    unfold logGens
    rw [gnext_fitnessLog]

theorem evolveLoop_generation (rand : ℕ → RandGen) (interval : ℕ) (P : Populations) :
    ∀ n, (evolveLoop rand interval P n).generation = P.generation + n := by
  intro n
  induction n with
  | zero => rfl
  | succ n ih =>
    show (evolveStep interval (rand n) (evolveLoop rand interval P n)).generation = _
    rw [evolveStep_generation, ih]
    omega

theorem evolveLoop_params (rand : ℕ → RandGen) (interval : ℕ) (P : Populations) :
    ∀ n, params (evolveLoop rand interval P n) = params P := by
  intro n
  induction n with
  | zero => rfl
  | succ n ih =>
    show params (evolveStep interval (rand n) (evolveLoop rand interval P n)) = _
    rw [evolveStep_params, ih]

theorem evolveLoop_logGens (rand : ℕ → RandGen) (interval : ℕ) (P : Populations) :
    ∀ n, logGens (evolveLoop rand interval P n) =
      logGens P ++
        (((List.range n).map fun k => P.generation + k + 1).filter
          fun g => g % interval == 0) := by
  intro n
  induction n with
  | zero => simp [evolveLoop]
  | succ n ih =>
    show logGens (evolveStep interval (rand n) (evolveLoop rand interval P n)) = _
    rw [evolveStep_logGens, evolveLoop_generation, ih]
    rw [List.range_succ, List.map_append, List.filter_append]
    by_cases hrec : (P.generation + n + 1) % interval = 0
    · rw [if_pos hrec]
      simp [hrec, List.append_assoc]
    · rw [if_neg hrec]
      simp [hrec]

theorem init_logGens (nReps N nLoci ploidy : ℕ) (gm sc : ℚ) (am : Bool) :
    logGens (Populations.init nReps N nLoci ploidy gm sc am) = [0] := by
  rfl

theorem init_generation (nReps N nLoci ploidy : ℕ) (gm sc : ℚ) (am : Bool) :
    (Populations.init nReps N nLoci ploidy gm sc am).generation = 0 := rfl

theorem init_params (nReps N nLoci ploidy : ℕ) (gm sc : ℚ) (am : Bool) :
    params (Populations.init nReps N nLoci ploidy gm sc am) =
      (nReps, N, nLoci, ploidy, gm, sc, am) := rfl

/-! Propagation of IEEE special values through the normalization
division and the selection cumulative sum. -/

theorem npAdd_not_finite (x y : NpFloat) (hx : x.isFinite = false)
    (hy : y.isFinite = false) : (npAdd x y).isFinite = false := by
  cases x <;> cases y <;> simp_all [NpFloat.isFinite, npAdd]

theorem relFitF_not_finite (P : Populations) (r : ℕ)
    (hz : ∑ j ∈ Finset.range P.N, fitnessCalc P r j = 0) :
    ∀ i, (relFitF P r i).isFinite = false := by
  intro i
  unfold relFitF
  rw [hz]
  simp only [npDiv, if_pos rfl]
  by_cases h0 : fitnessCalc P r i = 0
  · rw [if_pos h0]; rfl
  · rw [if_neg h0]
    by_cases hpos : 0 < fitnessCalc P r i
    · rw [if_pos hpos]; rfl
    · rw [if_neg hpos]; rfl

theorem cumsumF_not_finite (P : Populations) (r : ℕ)
    (hz : ∑ j ∈ Finset.range P.N, fitnessCalc P r j = 0) :
    ∀ i, (cumsumF P r i).isFinite = false := by
  intro i
  induction i with
  | zero => exact relFitF_not_finite P r hz 0
  | succ i ih =>
    exact npAdd_not_finite _ _ ih (relFitF_not_finite P r hz (i + 1))

end Amitosis

namespace Amitosis

/-! Support facts used to instantiate theorems at concrete inputs. -/

theorem zeroBinom_bounds : BinomBounds zeroBinom :=
  fun _ _ _ _ _ hn => ⟨le_refl 0, hn⟩

theorem minHyper_bounds : HyperBounds minHyper := by
  intro g b s r i l hg hb hs
  unfold minHyper
  constructor <;> omega

theorem basePop_somaInv : somaInv basePop := by
  intro r i l
  constructor <;> norm_num [basePop]

theorem basePop_germInv : germInv basePop := by
  intro r i l
  constructor <;> norm_num [basePop]

theorem basePop_relFit_nonneg :
    ∀ j, j < basePop.N → 0 ≤ basePop.get_fitness.relative_fitness 0 j := by
  intro j _
  norm_num [fitnessCalc, basePop, Finset.sum_range_succ, Finset.prod_range_succ]

/-! The claims. -/

/-- Claim C5: `get_fitness` assigns every individual the fitness equal
to the product over all loci of `1 + (soma/ploidy) * selcoef`
(multiplicative combination of per-locus effects) and the relative
fitness equal to that fitness divided by the sum of fitness over the
individual's replicate. -/
theorem claim_C5_fitness_formula (P : Populations) (r i : ℕ) :
    P.get_fitness.fitness r i =
      (∏ l ∈ Finset.range P.nLoci,
        (1 + ((P.soma r i l : ℚ) / (P.ploidy : ℚ)) * P.selcoef)) ∧
    P.get_fitness.relative_fitness r i =
      P.get_fitness.fitness r i /
        ∑ j ∈ Finset.range P.N, P.get_fitness.fitness r j :=
  ⟨rfl, rfl⟩

/-- Claim C6: whenever a replicate's total fitness is positive, the
relative fitness values computed by `get_fitness` for that replicate sum
to exactly 1 (in the exact arithmetic of this model). -/
theorem claim_C6_relative_fitness_sums_to_one (P : Populations) (r : ℕ)
    (hpos : 0 < ∑ j ∈ Finset.range P.N, P.get_fitness.fitness r j) :
    ∑ j ∈ Finset.range P.N, P.get_fitness.relative_fitness r j = 1 := by
  have hne : (∑ j ∈ Finset.range P.N, fitnessCalc P r j) ≠ 0 := ne_of_gt hpos
  simp only [get_fitness_relative_fitness]
  rw [← Finset.sum_div]
  exact div_self hne

/-- Witness for claim C6 at a concrete state with total fitness `2`. -/
theorem claim_C6_witness :
    (0 < ∑ j ∈ Finset.range basePop.N, basePop.get_fitness.fitness 0 j) ∧
    ∑ j ∈ Finset.range basePop.N, basePop.get_fitness.relative_fitness 0 j = 1 :=
  ⟨by norm_num [fitnessCalc, basePop, Finset.sum_range_succ, Finset.prod_range_succ],
   claim_C6_relative_fitness_sums_to_one basePop 0
     (by norm_num [fitnessCalc, basePop, Finset.sum_range_succ, Finset.prod_range_succ])⟩

/-- Claim C2: in amitotic mode, `reproduce` sets the next-generation
somatic count at `(r, i, l)` to the hypergeometric draw sampling
`ploidy` copies from the doubled pool of `2 * soma[r, p, l]` mutant and
`2 * (ploidy - soma[r, p, l])` wildtype copies, where `p = selected[r, i]`. -/
theorem claim_C2_amitotic_hypergeometric (P : Populations)
    (hy : ℤ → ℤ → ℕ → ℕ → ℕ → ℕ → ℤ) (hb : P.amitosis = true) (r i l : ℕ) :
    (P.reproduce hy).soma r i l =
      hy (2 * P.soma r (P.selected r i) l)
        (2 * ((P.ploidy : ℤ) - P.soma r (P.selected r i) l)) P.ploidy r i l := by
  rw [reproduce_soma_ami P hy hb]
  dsimp only
  rw [mul_comm (P.soma r (P.selected r i) l) 2,
    mul_comm ((P.ploidy : ℤ) - P.soma r (P.selected r i) l) 2]

/-- Witness for claim C2 at a concrete amitotic state. -/
theorem claim_C2_witness :
    (amiPop.reproduce minHyper).soma 0 0 0 =
      minHyper (2 * amiPop.soma 0 (amiPop.selected 0 0) 0)
        (2 * ((amiPop.ploidy : ℤ) - amiPop.soma 0 (amiPop.selected 0 0) 0))
        amiPop.ploidy 0 0 0 :=
  claim_C2_amitotic_hypergeometric amiPop minHyper rfl 0 0 0

/-- Claim C7: in both reproduction modes the next generation's germ
state of individual `i` in replicate `r` is an exact copy of the germ
state of the selected parent `selected[r, i]` (a pure gather), and in
mitotic mode the soma is the identical gather, preserving the parent's
somatic counts exactly. -/
theorem claim_C7_clonal_germ_and_mitotic_soma (P : Populations)
    (hy : ℤ → ℤ → ℕ → ℕ → ℕ → ℕ → ℤ) (r i l : ℕ) :
    (P.reproduce hy).germ r i l = P.germ r (P.selected r i) l ∧
    (P.amitosis = false →
      (P.reproduce hy).soma r i l = P.soma r (P.selected r i) l) := by
  constructor
  · rw [reproduce_germ]
  · intro hb
    rw [reproduce_soma_mit P hy hb]

/-- Witness for claim C7 at a concrete mitotic state. -/
theorem claim_C7_witness :
    (basePop.reproduce minHyper).germ 0 0 0 = basePop.germ 0 (basePop.selected 0 0) 0 ∧
    (basePop.amitosis = false →
      (basePop.reproduce minHyper).soma 0 0 0 = basePop.soma 0 (basePop.selected 0 0) 0) :=
  claim_C7_clonal_germ_and_mitotic_soma basePop minHyper 0 0 0

/-- Claim C4: `mutate` increments each somatic site by the binomial
draw with trials `ploidy - soma[r,i,l]` and each germline site by the
binomial draw with trials `2 - germ[r,i,l]`, both at the same scalar
success probability `mu = genomic_mu / (nLoci * ploidy)`; under the
binomial support constraint no allele count ever decreases. -/
theorem claim_C4_mutate_binomial (P : Populations)
    (bS bG : ℤ → ℚ → ℕ → ℕ → ℕ → ℤ)
    (hbS : BinomBounds bS) (hbG : BinomBounds bG)
    (hs : somaInv P) (hg : germInv P) (r i l : ℕ) :
    (P.mutate bS bG).soma r i l =
      P.soma r i l + bS ((P.ploidy : ℤ) - P.soma r i l) P.mu r i l ∧
    (P.mutate bS bG).germ r i l =
      P.germ r i l + bG (2 - P.germ r i l) P.mu r i l ∧
    P.mu = P.genomic_mu / ((P.nLoci : ℚ) * (P.ploidy : ℚ)) ∧
    P.soma r i l ≤ (P.mutate bS bG).soma r i l ∧
    P.germ r i l ≤ (P.mutate bS bG).germ r i l := by
  refine ⟨rfl, rfl, rfl, ?_, ?_⟩
  · have h1 := hs r i l
    have h2 := hbS ((P.ploidy : ℤ) - P.soma r i l) P.mu r i l (by omega)
    simp only [mutate_soma]
    omega
  · have h1 := hg r i l
    have h2 := hbG (2 - P.germ r i l) P.mu r i l (by omega)
    simp only [mutate_germ]
    omega

/-- Witness for claim C4 at a concrete state with support-respecting
binomial oracles. -/
theorem claim_C4_witness :
    (basePop.mutate zeroBinom zeroBinom).soma 0 0 0 =
      basePop.soma 0 0 0 +
        zeroBinom ((basePop.ploidy : ℤ) - basePop.soma 0 0 0) basePop.mu 0 0 0 ∧
    (basePop.mutate zeroBinom zeroBinom).germ 0 0 0 =
      basePop.germ 0 0 0 + zeroBinom (2 - basePop.germ 0 0 0) basePop.mu 0 0 0 ∧
    basePop.mu = basePop.genomic_mu / ((basePop.nLoci : ℚ) * (basePop.ploidy : ℚ)) ∧
    basePop.soma 0 0 0 ≤ (basePop.mutate zeroBinom zeroBinom).soma 0 0 0 ∧
    basePop.germ 0 0 0 ≤ (basePop.mutate zeroBinom zeroBinom).germ 0 0 0 :=
  claim_C4_mutate_binomial basePop zeroBinom zeroBinom zeroBinom_bounds
    zeroBinom_bounds basePop_somaInv basePop_germInv 0 0 0

end Amitosis

namespace Amitosis

/-- Claim C1: if every soma entry lies in `[0, ploidy]` and every germ
entry lies in `[0, 2]` before a call to `mutate` or to `reproduce`
(either mode) and `ploidy ≥ 1`, the same bounds hold after the call; and
since construction zero-initialises both arrays, the bounds hold at all
generations of an `evolve` run. -/
theorem claim_C1_array_bounds (P : Populations)
    (bS bG : ℤ → ℚ → ℕ → ℕ → ℕ → ℤ) (hy : ℤ → ℤ → ℕ → ℕ → ℕ → ℕ → ℤ)
    (hbS : BinomBounds bS) (hbG : BinomBounds bG) (hhy : HyperBounds hy)
    (hpl : 1 ≤ P.ploidy) (hs : somaInv P) (hg : germInv P)
    (nReps N nLoci ploidy : ℕ) (gm sc : ℚ) (am : Bool) (hpl2 : 1 ≤ ploidy)
    (rand : ℕ → RandGen)
    (hrand : ∀ k, BinomBounds (rand k).binomS ∧ BinomBounds (rand k).binomG ∧
      HyperBounds (rand k).hyper)
    (interval : ℕ) :
    (somaInv (P.mutate bS bG) ∧ germInv (P.mutate bS bG)) ∧
    (somaInv (P.reproduce hy) ∧ germInv (P.reproduce hy)) ∧
    (∀ n, somaInv (evolveLoop rand interval
        (Populations.init nReps N nLoci ploidy gm sc am) n) ∧
      germInv (evolveLoop rand interval
        (Populations.init nReps N nLoci ploidy gm sc am) n)) := by
  refine ⟨⟨mutate_somaInv P bS bG hbS hs, mutate_germInv P bS bG hbG hg⟩,
    ⟨reproduce_somaInv P hy hhy hs, reproduce_germInv P hy hg⟩, ?_⟩
  exact evolveLoop_inv rand interval _ hrand
    (init_somaInv nReps N nLoci ploidy gm sc am)
    (init_germInv nReps N nLoci ploidy gm sc am)

/-- Witness for claim C1 at a concrete state and concrete
support-respecting oracles. -/
theorem claim_C1_witness :
    (somaInv (basePop.mutate zeroBinom zeroBinom) ∧
      germInv (basePop.mutate zeroBinom zeroBinom)) ∧
    (somaInv (basePop.reproduce minHyper) ∧ germInv (basePop.reproduce minHyper)) ∧
    (∀ n, somaInv (evolveLoop wRand 1 (Populations.init 1 2 1 2 0 0 false) n) ∧
      germInv (evolveLoop wRand 1 (Populations.init 1 2 1 2 0 0 false) n)) :=
  claim_C1_array_bounds basePop zeroBinom zeroBinom minHyper
    zeroBinom_bounds zeroBinom_bounds minHyper_bounds
    (by norm_num [basePop]) basePop_somaInv basePop_germInv
    1 2 1 2 0 0 false (by norm_num)
    wRand (fun _ => ⟨zeroBinom_bounds, zeroBinom_bounds, minHyper_bounds⟩) 1

/-- Claim C3: `select` recomputes fitness, and each selected index is
the first index whose cumulative relative fitness is at or above the
corresponding uniform draw (ties to the lower index), with value `N`
when no index qualifies; the index for `(r, i)` depends only on
replicate `r`'s relative fitness values, the draw at `(r, i)` and `N`. -/
theorem claim_C3_select_inverse_cdf (P : Populations) (draws : ℕ → ℕ → ℚ)
    (r i : ℕ)
    (hnn : ∀ j, j < P.N → 0 ≤ P.get_fitness.relative_fitness r j) :
    ((P.select draws).fitness = P.get_fitness.fitness ∧
      (P.select draws).relative_fitness = P.get_fitness.relative_fitness) ∧
    (P.select draws).selected r i ≤ P.N ∧
    (∀ k, k < (P.select draws).selected r i →
      cumsumRel P.get_fitness r k < draws r i) ∧
    ((P.select draws).selected r i < P.N →
      draws r i ≤ cumsumRel P.get_fitness r ((P.select draws).selected r i)) ∧
    (∀ (Q : Populations) (draws2 : ℕ → ℕ → ℚ), Q.N = P.N →
      (∀ j, Q.get_fitness.relative_fitness r j =
        P.get_fitness.relative_fitness r j) →
      draws2 r i = draws r i →
      (Q.select draws2).selected r i = (P.select draws).selected r i) := by
  have hmono : ∀ j k, 0 ≤ j → j ≤ k → k < P.N →
      cumsumRel P.get_fitness r j ≤ cumsumRel P.get_fitness r k :=
    cumsumRel_mono P.get_fitness r hnn
  refine ⟨⟨rfl, rfl⟩, ?_, ?_, ?_, ?_⟩
  · simp only [select_selected]
    exact (searchsorted_bounds _ _ P.N 0 P.N (by omega) (by omega)).2
  · intro k hk
    simp only [select_selected] at hk
    exact searchsorted_lt_of_lt _ _ P.N 0 P.N (by omega)
      (fun j k2 _ hjk hk2 => hmono j k2 (by omega) hjk hk2) k (by omega) hk
  · intro hlt
    simp only [select_selected] at hlt ⊢
    exact searchsorted_ge_at _ _ P.N 0 P.N (by omega)
      (fun j k2 _ hjk hk2 => hmono j k2 (by omega) hjk hk2) hlt
  · intro Q draws2 hN hagree hdr
    simp only [select_selected]
    have hc : cumsumRel Q.get_fitness r = cumsumRel P.get_fitness r := by
      funext j
      unfold cumsumRel
      exact Finset.sum_congr rfl fun x _ => hagree x
    rw [hc, hdr, hN]

/-- Witness for claim C3 at a concrete state with nonnegative relative
fitness. -/
theorem claim_C3_witness :
    ((basePop.select zeroUnif).fitness = basePop.get_fitness.fitness ∧
      (basePop.select zeroUnif).relative_fitness =
        basePop.get_fitness.relative_fitness) ∧
    (basePop.select zeroUnif).selected 0 0 ≤ basePop.N ∧
    (∀ k, k < (basePop.select zeroUnif).selected 0 0 →
      cumsumRel basePop.get_fitness 0 k < zeroUnif 0 0) ∧
    ((basePop.select zeroUnif).selected 0 0 < basePop.N →
      zeroUnif 0 0 ≤
        cumsumRel basePop.get_fitness 0 ((basePop.select zeroUnif).selected 0 0)) ∧
    (∀ (Q : Populations) (draws2 : ℕ → ℕ → ℚ), Q.N = basePop.N →
      (∀ j, Q.get_fitness.relative_fitness 0 j =
        basePop.get_fitness.relative_fitness 0 j) →
      draws2 0 0 = zeroUnif 0 0 →
      (Q.select draws2).selected 0 0 = (basePop.select zeroUnif).selected 0 0) :=
  claim_C3_select_inverse_cdf basePop zeroUnif 0 0 basePop_relFit_nonneg

/-- Claim C10: when some cumulative relative fitness of replicate `r`
reaches the draw — in particular when the cumulative sum ends at exactly
1 and the draw lies below 1 — every selected parent index is below `N`,
so the gathers of `reproduce` stay in bounds; and when every cumulative
sum is strictly below the draw, `select` returns the out-of-range value
`N`. -/
theorem claim_C10_selected_in_range (P : Populations) (draws : ℕ → ℕ → ℚ)
    (r i : ℕ)
    (hnn : ∀ j, j < P.N → 0 ≤ P.get_fitness.relative_fitness r j)
    (hN : 1 ≤ P.N) :
    ((∃ j, j < P.N ∧ draws r i ≤ cumsumRel P.get_fitness r j) →
      (P.select draws).selected r i < P.N) ∧
    (cumsumRel P.get_fitness r (P.N - 1) = 1 → draws r i < 1 →
      (P.select draws).selected r i < P.N) ∧
    ((∀ j, j < P.N → cumsumRel P.get_fitness r j < draws r i) →
      (P.select draws).selected r i = P.N) := by
  have hmono : ∀ j k, 0 ≤ j → j ≤ k → k < P.N →
      cumsumRel P.get_fitness r j ≤ cumsumRel P.get_fitness r k :=
    cumsumRel_mono P.get_fitness r hnn
  have hle : searchsorted (cumsumRel P.get_fitness r) (draws r i) 0 P.N ≤ P.N :=
    (searchsorted_bounds _ _ P.N 0 P.N (by omega) (by omega)).2
  have hcov : (∃ j, j < P.N ∧ draws r i ≤ cumsumRel P.get_fitness r j) →
      (P.select draws).selected r i < P.N := by
    rintro ⟨j, hj, hjc⟩
    simp only [select_selected]
    by_contra hcon
    have heq : searchsorted (cumsumRel P.get_fitness r) (draws r i) 0 P.N = P.N := by
      simp only [select_selected] at hcon
      omega
    have hblw := searchsorted_lt_of_lt (cumsumRel P.get_fitness r) (draws r i)
      P.N 0 P.N (by omega)
      (fun j2 k2 _ hjk hk2 => hmono j2 k2 (by omega) hjk hk2) j (by omega)
      (by omega)
    exact absurd hjc (not_le.mpr hblw)
  refine ⟨hcov, ?_, ?_⟩
  · intro hsum hdr
    exact hcov ⟨P.N - 1, by omega, by rw [hsum]; exact le_of_lt hdr⟩
  · intro hall
    simp only [select_selected]
    by_contra hcon
    have hlt : searchsorted (cumsumRel P.get_fitness r) (draws r i) 0 P.N < P.N := by
      simp only [select_selected] at hcon
      omega
    have hge := searchsorted_ge_at (cumsumRel P.get_fitness r) (draws r i)
      P.N 0 P.N (by omega)
      (fun j2 k2 _ hjk hk2 => hmono j2 k2 (by omega) hjk hk2) hlt
    exact absurd hge (not_le.mpr (hall _ hlt))

/-- Witness for claim C10 at a concrete state. -/
theorem claim_C10_witness :
    ((∃ j, j < basePop.N ∧ zeroUnif 0 0 ≤ cumsumRel basePop.get_fitness 0 j) →
      (basePop.select zeroUnif).selected 0 0 < basePop.N) ∧
    (cumsumRel basePop.get_fitness 0 (basePop.N - 1) = 1 → zeroUnif 0 0 < 1 →
      (basePop.select zeroUnif).selected 0 0 < basePop.N) ∧
    ((∀ j, j < basePop.N → cumsumRel basePop.get_fitness 0 j < zeroUnif 0 0) →
      (basePop.select zeroUnif).selected 0 0 = basePop.N) :=
  claim_C10_selected_in_range basePop zeroUnif 0 0 basePop_relFit_nonneg
    (by norm_num [basePop])

/-- Claim C8: when a replicate's total fitness is exactly zero,
`get_fitness` still performs the normalization division (it is total, no
validation or exception), producing only non-finite (NaN or infinite)
relative-fitness values, which then contaminate every entry of the
cumulative sum that the subsequent `select` step builds from them. -/
theorem claim_C8_zero_fitness_invalid (P : Populations) (r : ℕ)
    (hz : ∑ j ∈ Finset.range P.N, P.get_fitness.fitness r j = 0) :
    (∀ i, (relFitF P r i).isFinite = false) ∧
    (∀ i, (cumsumF P r i).isFinite = false) :=
  ⟨relFitF_not_finite P r hz, cumsumF_not_finite P r hz⟩

/-- Witness for claim C8 at a concrete state with `selcoef = -1` and
fully mutant soma, whose total fitness is exactly zero. -/
theorem claim_C8_witness :
    (∀ i, (relFitF zeroFitPop 0 i).isFinite = false) ∧
    (∀ i, (cumsumF zeroFitPop 0 i).isFinite = false) :=
  claim_C8_zero_fitness_invalid zeroFitPop 0
    (by norm_num [fitnessCalc, zeroFitPop, basePop,
      Finset.sum_range_succ, Finset.prod_range_succ])

end Amitosis

namespace Amitosis

/-- Claim C9, counterexample to the claimed column count: after the
three columns `generation`, `fitness_mean` and `fitness_std`, the table
returned by `evolve` echoes seven construction parameter columns, not
six. -/
theorem claim_C9_counterexample :
    (evolveColumns.drop 3).length = 7 ∧ ¬ (evolveColumns.drop 3).length = 6 := by
  constructor
  · rfl
  · decide

/-- Claim C9 (amended: seven construction parameters, not six): `evolve`
returns a table with one row per recorded generation whose columns are
`generation`, `fitness_mean`, `fitness_std` and echoed copies of all
seven construction parameters repeated identically on every row. -/
theorem claim_C9_evolve_table (nReps N nLoci ploidy : ℕ) (gm sc : ℚ) (am : Bool)
    (rand : ℕ → RandGen) (ngenerations interval : ℕ) (hint : 0 < interval) :
    evolveColumns = ["generation", "fitness_mean", "fitness_std"] ++
      ["nReps", "N", "nLoci", "ploidy", "genomic_mu", "selcoef", "amitosis"] ∧
    ((Populations.init nReps N nLoci ploidy gm sc am).evolve rand ngenerations
        interval).map (fun row => row.generation) =
      0 :: (((List.range ngenerations).map fun k => k + 1).filter
        fun g => g % interval == 0) ∧
    ∀ row ∈ (Populations.init nReps N nLoci ploidy gm sc am).evolve rand
        ngenerations interval,
      row.nReps = nReps ∧ row.N = N ∧ row.nLoci = nLoci ∧ row.ploidy = ploidy ∧
      row.genomic_mu = gm ∧ row.selcoef = sc ∧ row.amitosis = am := by
  refine ⟨rfl, ?_, ?_⟩
  · unfold Populations.evolve
    rw [List.map_map]
    change logGens (evolveLoop rand interval
      (Populations.init nReps N nLoci ploidy gm sc am) ngenerations) = _
    rw [evolveLoop_logGens, init_logGens]
    simp only [init_generation, zero_add, List.singleton_append]
  · intro row hrow
    unfold Populations.evolve at hrow
    rw [List.mem_map] at hrow
    obtain ⟨e, he, hre⟩ := hrow
    subst hre
    have hp := evolveLoop_params rand interval
      (Populations.init nReps N nLoci ploidy gm sc am) ngenerations
    rw [init_params] at hp
    simp only [params, Prod.mk.injEq] at hp
    exact ⟨hp.1, hp.2.1, hp.2.2.1, hp.2.2.2.1, hp.2.2.2.2.1,
      hp.2.2.2.2.2.1, hp.2.2.2.2.2.2⟩

/-- Witness for the amended claim C9 at concrete parameters, one
generation evolved with recording interval 1. -/
theorem claim_C9_witness :
    evolveColumns = ["generation", "fitness_mean", "fitness_std"] ++
      ["nReps", "N", "nLoci", "ploidy", "genomic_mu", "selcoef", "amitosis"] ∧
    ((Populations.init 1 2 1 2 0 0 false).evolve wRand 1 1).map
        (fun row => row.generation) =
      0 :: (((List.range 1).map fun k => k + 1).filter fun g => g % 1 == 0) ∧
    ∀ row ∈ (Populations.init 1 2 1 2 0 0 false).evolve wRand 1 1,
      row.nReps = 1 ∧ row.N = 2 ∧ row.nLoci = 1 ∧ row.ploidy = 2 ∧
      row.genomic_mu = 0 ∧ row.selcoef = 0 ∧ row.amitosis = false :=
  claim_C9_evolve_table 1 2 1 2 0 0 false wRand 1 1 (by norm_num)

end Amitosis
